import Mathlib

/-!
Verification of the dynamo schema-to-table-definition compiler, item codec
and table-lifecycle behaviour, as a shallow embedding in Lean 4.

The repository ships the module facade (`lib/index.js`) and integration
tests.  The facade's own logic (`compileModel` table naming, `define`,
`createTables` promise/callback dispatch) is embedded directly from that
source.  The Schema, Table and serializer modules it requires are not part
of the available sources, so those components (SchemaCompiler,
AttributeTypeInference, TableLifecycleController, ItemCodec) are modelled
from the specification, as marked on each definition.
-/

namespace Dynamo

/-- Modelled from the spec: application-level semantic field types
(string, number, date, boolean, binary, UUID, set-of-X) recognised by
AttributeTypeInference. -/
inductive FieldType where
  | string
  | number
  | date
  | boolean
  | binary
  | uuid
  | stringSet
  | numberSet
  | binarySet
deriving DecidableEq, Repr

/-- Modelled from the spec: the store's attribute-value type tags. -/
inductive StoreTag where
  | S
  | N
  | B
  | BOOL
  | SS
  | NS
  | BS
deriving DecidableEq, Repr

/-- Modelled from the spec: AttributeTypeInference.  Mapping rules:
string-like → S; numeric → N; date/time → S; boolean → BOOL; binary → B;
set-of-T → the set variant of T's tag; UUID-valued fields are treated as
string (S). -/
def inferType : FieldType → StoreTag
  | .string => .S
  | .number => .N
  | .date => .S
  | .boolean => .BOOL
  | .binary => .B
  | .uuid => .S
  | .stringSet => .SS
  | .numberSet => .NS
  | .binarySet => .BS

/-- Modelled from the spec: application-level values handled by the
ItemCodec.  A date value carries its serialized string form, decided at
schema-definition time. -/
inductive AppValue where
  | vStr (s : String)
  | vNum (n : Int)
  | vDate (iso : String)
  | vBool (b : Bool)
  | vBin (bytes : List Nat)
  | vStrSet (ss : List String)
  | vNumSet (ns : List Int)
  | vBinSet (bs : List (List Nat))
deriving DecidableEq, Repr

/-- Modelled from the spec: the store's typed attribute-value wire
encoding.  The N variant carries the numeric value itself: numeric values
are preserved as returned by the store without re-encoding. -/
inductive AttrValue where
  | S (s : String)
  | N (n : Int)
  | B (bytes : List Nat)
  | BOOL (b : Bool)
  | SS (ss : List String)
  | NS (ns : List Int)
  | BS (bs : List (List Nat))
deriving DecidableEq, Repr

/-- Modelled from the spec: a schema field's declared semantic type plus
an optional default-value generator.  A generator is impure (current
timestamp, random UUID); the model records the value it produces for the
marshal call under consideration. -/
structure FieldSpec where
  ftype : FieldType
  default : Option AppValue := none
deriving DecidableEq, Repr

/-- Index kind discriminator: LOCAL or GLOBAL secondary index. -/
inductive IndexKind where
  | localIdx
  | globalIdx
deriving DecidableEq, Repr

/-- Is this the LOCAL kind? -/
def IndexKind.isLocal : IndexKind → Bool
  | .localIdx => true
  | .globalIdx => false

/-- Projection type of a secondary index. -/
inductive ProjectionType where
  | ALL
  | KEYS_ONLY
  | INCLUDE
deriving DecidableEq, Repr

/-- Modelled from the spec: index projection, default `{type: ALL}`. -/
structure Projection where
  projectionType : ProjectionType
  nonKeyAttributes : List String := []
deriving DecidableEq, Repr

/-- Provisioned read/write capacity units. -/
structure ProvisionedThroughput where
  readCapacityUnits : Nat
  writeCapacityUnits : Nat
deriving DecidableEq, Repr

/-- Modelled from the spec: a secondary-index declaration as accepted by
the schema configuration surface
(`{hashKey, rangeKey?, type: local|global, name, projection?, readCapacity?, writeCapacity?}`). -/
structure IndexDefinition where
  hashKey : String
  rangeKey : Option String := none
  kind : IndexKind
  name : String
  projection : Option Projection := none
  readCapacity : Option Nat := none
  writeCapacity : Option Nat := none
deriving DecidableEq, Repr

/-- Modelled from the spec: a SchemaDefinition — hash key (required),
optional range key, field name → type map with optional default
generators, secondary-index declarations, optional explicit table name. -/
structure SchemaDefinition where
  hashKey : String
  rangeKey : Option String := none
  fields : List (String × FieldSpec) := []
  indexes : List IndexDefinition := []
  tableName : Option String := none
deriving DecidableEq, Repr

/-- An AttributeDefinition: attribute name with its store type tag. -/
structure AttributeDefinition where
  attributeName : String
  attributeType : StoreTag
deriving DecidableEq, Repr

/-- Key role within a key schema. -/
inductive KeyType where
  | HASH
  | RANGE
deriving DecidableEq, Repr

/-- One element of a key schema: attribute name and its role. -/
structure KeySchemaElement where
  attributeName : String
  keyType : KeyType
deriving DecidableEq, Repr

/-- A compiled secondary-index definition: name, key schema, projection,
and (for global indexes only) its own provisioned throughput. -/
structure CompiledIndex where
  indexName : String
  keySchema : List KeySchemaElement
  projection : Projection
  provisionedThroughput : Option ProvisionedThroughput := none
deriving DecidableEq, Repr

/-- The compiled table definition produced by the SchemaCompiler. -/
structure TableDefinition where
  attributeDefinitions : List AttributeDefinition
  keySchema : List KeySchemaElement
  localSecondaryIndexes : List CompiledIndex
  globalSecondaryIndexes : List CompiledIndex
deriving DecidableEq, Repr

/-- Compile-time schema errors. -/
inductive SchemaError where
  | missingType (attr : String)
  | localIndexWithoutTableRangeKey (idx : String)
  | localIndexWithoutRangeKey (idx : String)
deriving DecidableEq, Repr

/-- Association-list lookup by field name (first match), as a JS object
property access over the embedded maps. -/
def lookupValue {α : Type} (l : List (String × α)) (n : String) : Option α :=
  (l.find? fun p => p.1 == n).map Prod.snd

/-- Modelled from the spec: resolve an attribute's store type from the
schema's field-type map via AttributeTypeInference; a key or index
attribute with no type in the map is a SchemaError. -/
def resolveAttr (fields : List (String × FieldSpec)) (n : String) :
    Except SchemaError AttributeDefinition :=
  match lookupValue fields n with
  | some fs => .ok ⟨n, inferType fs.ftype⟩
  | none => .error (.missingType n)

/-- Append an attribute definition unless one with the same name is
already present (duplicates collapsed, first-reference order kept). -/
def addAttr (defs : List AttributeDefinition) (d : AttributeDefinition) :
    List AttributeDefinition :=
  if defs.any fun a => a.attributeName == d.attributeName then defs
  else defs ++ [d]

/-- Modelled from the spec: accumulate AttributeDefinitions over the
referenced attribute names, resolving each type and collapsing
duplicates. -/
def compileDefs (fields : List (String × FieldSpec)) :
    List String → List AttributeDefinition → Except SchemaError (List AttributeDefinition)
  | [], defs => .ok defs
  | n :: ns, defs =>
    match resolveAttr fields n with
    | .error e => .error e
    | .ok d => compileDefs fields ns (addAttr defs d)

/-- The table's own key-schema attribute names: hash key, then range key
when present. -/
def tableKeyNames (s : SchemaDefinition) : List String :=
  match s.rangeKey with
  | some rk => [s.hashKey, rk]
  | none => [s.hashKey]

/-- Modelled from the spec: the attribute names referenced by one index's
key schema — a LOCAL index inherits the table's hash key, a GLOBAL index
has its own. -/
def indexKeyNames (s : SchemaDefinition) (ix : IndexDefinition) : List String :=
  match ix.kind with
  | .localIdx => s.hashKey :: ix.rangeKey.toList
  | .globalIdx => ix.hashKey :: ix.rangeKey.toList

/-- Key names referenced by a list of indexes, in declaration order. -/
def indexesKeyNames (s : SchemaDefinition) : List IndexDefinition → List String
  | [] => []
  | ix :: rest => indexKeyNames s ix ++ indexesKeyNames s rest

/-- All attribute names referenced by the table key schema or any index
key schema, in first-reference order with duplicates kept: table hash
key, table range key, then index keys in declaration order. -/
def referencedNames (s : SchemaDefinition) : List String :=
  tableKeyNames s ++ indexesKeyNames s s.indexes

/-- The table's compiled KeySchema: HASH always present and first, RANGE
second when the schema has a range key. -/
def tableKeySchema (s : SchemaDefinition) : List KeySchemaElement :=
  match s.rangeKey with
  | some rk => [⟨s.hashKey, .HASH⟩, ⟨rk, .RANGE⟩]
  | none => [⟨s.hashKey, .HASH⟩]

/-- Modelled from the spec: compile one secondary-index declaration.  A
LOCAL index requires the table to be range-keyed and its own range key,
shares the table's hash key and inherits the table's throughput; a GLOBAL
index carries its own key schema and throughput (default read 1 /
write 1).  Projection defaults to ALL. -/
def compileIndex (s : SchemaDefinition) (ix : IndexDefinition) :
    Except SchemaError CompiledIndex :=
  match ix.kind with
  | .localIdx =>
    match s.rangeKey with
    | none => .error (.localIndexWithoutTableRangeKey ix.name)
    | some _ =>
      match ix.rangeKey with
      | none => .error (.localIndexWithoutRangeKey ix.name)
      | some rk =>
        .ok { indexName := ix.name
              keySchema := [⟨s.hashKey, .HASH⟩, ⟨rk, .RANGE⟩]
              projection := ix.projection.getD ⟨.ALL, []⟩
              provisionedThroughput := none }
  | .globalIdx =>
    .ok { indexName := ix.name
          keySchema :=
            match ix.rangeKey with
            | some rk => [⟨ix.hashKey, .HASH⟩, ⟨rk, .RANGE⟩]
            | none => [⟨ix.hashKey, .HASH⟩]
          projection := ix.projection.getD ⟨.ALL, []⟩
          provisionedThroughput :=
            some ⟨ix.readCapacity.getD 1, ix.writeCapacity.getD 1⟩ }

/-- Map a fallible compilation step over a list, stopping at the first
error. -/
def mapExcept {ε α β : Type} (f : α → Except ε β) : List α → Except ε (List β)
  | [] => .ok []
  | a :: l =>
    match f a with
    | .error e => .error e
    | .ok b =>
      match mapExcept f l with
      | .error e => .error e
      | .ok bs => .ok (b :: bs)

/-- Modelled from the spec: the SchemaCompiler.  Seeds AttributeDefinitions
with the table keys, appends each index-referenced attribute on first
reference, and partitions the indexes into LOCAL and GLOBAL lists with
their key schemas, projections and throughput. -/
def compile (s : SchemaDefinition) : Except SchemaError TableDefinition :=
  match compileDefs s.fields (referencedNames s) [] with
  | .error e => .error e
  | .ok defs =>
    match mapExcept (compileIndex s) (s.indexes.filter fun ix => ix.kind.isLocal) with
    | .error e => .error e
    | .ok lis =>
      match mapExcept (compileIndex s) (s.indexes.filter fun ix => !ix.kind.isLocal) with
      | .error e => .error e
      | .ok gis =>
        .ok { attributeDefinitions := defs
              keySchema := tableKeySchema s
              localSecondaryIndexes := lis
              globalSecondaryIndexes := gis }

/-- The schema of the hash-and-range-key creation scenario: hash key
`name` (string), range key `age` (number). -/
def nameAgeSchema : SchemaDefinition :=
  { hashKey := "name"
    rangeKey := some "age"
    fields := [("name", ⟨.string, none⟩), ("age", ⟨.number, none⟩)] }

/-- Keep a name on first reference, drop later duplicates. -/
def addName (acc : List String) (n : String) : List String :=
  if n ∈ acc then acc else acc ++ [n]

/-- The distinct names of a list in first-occurrence order. -/
def firstOccurrences (l : List String) : List String :=
  l.foldl addName []

theorem addName_nodup (acc : List String) (n : String) (h : acc.Nodup) :
    (addName acc n).Nodup := by
  unfold addName
  split
  · exact h
  · simp_all [List.nodup_append]

theorem foldl_addName_nodup (l : List String) :
    ∀ acc : List String, acc.Nodup → (l.foldl addName acc).Nodup := by
  induction l with
  | nil => intro acc h; exact h
  | cons a l ih =>
    intro acc h
    exact ih (addName acc a) (addName_nodup acc a h)

theorem mem_addName (acc : List String) (a n : String) :
    n ∈ addName acc a ↔ n ∈ acc ∨ n = a := by
  unfold addName
  split
  · rename_i h
    constructor
    · exact fun hn => Or.inl hn
    · rintro (hn | rfl)
      · exact hn
      · exact h
  · simp

theorem mem_foldl_addName (l : List String) :
    ∀ (acc : List String) (n : String),
      n ∈ l.foldl addName acc ↔ n ∈ acc ∨ n ∈ l := by
  induction l with
  | nil => simp
  | cons a l ih =>
    intro acc n
    rw [List.foldl_cons, ih, mem_addName]
    simp [or_assoc]

theorem mem_firstOccurrences (l : List String) (n : String) :
    n ∈ firstOccurrences l ↔ n ∈ l := by
  unfold firstOccurrences
  rw [mem_foldl_addName]
  simp

theorem resolveAttr_name (fields : List (String × FieldSpec)) (n : String)
    (d : AttributeDefinition) (h : resolveAttr fields n = .ok d) :
    d.attributeName = n := by
  unfold resolveAttr at h
  cases hl : lookupValue fields n <;> rw [hl] at h
  · exact absurd h (by simp)
  · cases h
    rfl

theorem addAttr_map_name (defs : List AttributeDefinition) (d : AttributeDefinition) :
    (addAttr defs d).map AttributeDefinition.attributeName =
      addName (defs.map AttributeDefinition.attributeName) d.attributeName := by
  unfold addAttr addName
  have hiff : (defs.any fun a => a.attributeName == d.attributeName) = true ↔
      d.attributeName ∈ defs.map AttributeDefinition.attributeName := by
    rw [List.any_eq_true, List.mem_map]
    constructor
    · rintro ⟨a, ha, hb⟩
      exact ⟨a, ha, beq_iff_eq.mp hb⟩
    · rintro ⟨a, ha, hb⟩
      exact ⟨a, ha, beq_iff_eq.mpr hb⟩
  by_cases h : d.attributeName ∈ defs.map AttributeDefinition.attributeName
  · rw [if_pos (hiff.mpr h), if_pos h]
  · rw [if_neg (fun hb => h (hiff.mp hb)), if_neg h]
    simp

theorem compileDefs_map_name (fields : List (String × FieldSpec)) :
    ∀ (names : List String) (defs0 defs : List AttributeDefinition),
      compileDefs fields names defs0 = .ok defs →
      defs.map AttributeDefinition.attributeName =
        names.foldl addName (defs0.map AttributeDefinition.attributeName) := by
  intro names
  induction names with
  | nil =>
    intro defs0 defs h
    cases h
    rfl
  | cons n ns ih =>
    intro defs0 defs h
    unfold compileDefs at h
    cases hr : resolveAttr fields n <;> rw [hr] at h
    · exact absurd h (by simp)
    · rename_i d
      rw [List.foldl_cons, ← resolveAttr_name fields n d hr, ← addAttr_map_name]
      exact ih (addAttr defs0 d) defs h

theorem mapExcept_ok_mem_left {ε α β : Type} (f : α → Except ε β) :
    ∀ (l : List α) (l' : List β), mapExcept f l = .ok l' →
      ∀ a ∈ l, ∃ b ∈ l', f a = .ok b := by
  intro l
  induction l with
  | nil => simp
  | cons a l ih =>
    intro l' h x hx
    unfold mapExcept at h
    cases h1 : f a <;> rw [h1] at h
    · exact absurd h (by simp)
    · cases h2 : mapExcept f l <;> rw [h2] at h
      · exact absurd h (by simp)
      · rename_i b bs
        cases h
        rw [List.mem_cons] at hx
        rcases hx with rfl | hx
        · exact ⟨b, List.mem_cons_self _ _, h1⟩
        · obtain ⟨b', hb', hfb'⟩ := ih bs h2 x hx
          exact ⟨b', List.mem_cons_of_mem _ hb', hfb'⟩

theorem mapExcept_ok_mem_right {ε α β : Type} (f : α → Except ε β) :
    ∀ (l : List α) (l' : List β), mapExcept f l = .ok l' →
      ∀ b ∈ l', ∃ a ∈ l, f a = .ok b := by
  intro l
  induction l with
  | nil =>
    intro l' h b hb
    cases h
    simp at hb
  | cons a l ih =>
    intro l' h b hb
    unfold mapExcept at h
    cases h1 : f a <;> rw [h1] at h
    · exact absurd h (by simp)
    · cases h2 : mapExcept f l <;> rw [h2] at h
      · exact absurd h (by simp)
      · rename_i b0 bs
        cases h
        rw [List.mem_cons] at hb
        rcases hb with rfl | hb
        · exact ⟨a, List.mem_cons_self _ _, h1⟩
        · obtain ⟨a', ha', hfa'⟩ := ih bs h2 b hb
          exact ⟨a', List.mem_cons_of_mem _ ha', hfa'⟩

theorem compileIndex_keyNames (s : SchemaDefinition) (ix : IndexDefinition)
    (ci : CompiledIndex) (h : compileIndex s ix = .ok ci) :
    ci.keySchema.map KeySchemaElement.attributeName = indexKeyNames s ix := by
  unfold compileIndex at h
  unfold indexKeyNames
  cases hk : ix.kind <;> rw [hk] at h
  · cases hsr : s.rangeKey <;> rw [hsr] at h
    · exact absurd h (by simp)
    · cases hir : ix.rangeKey <;> rw [hir] at h
      · exact absurd h (by simp)
      · cases h
        simp [hir]
  · cases hir : ix.rangeKey <;> rw [hir] at h <;> cases h <;> simp [hir]

theorem compile_ok_parts (s : SchemaDefinition) (td : TableDefinition)
    (h : compile s = .ok td) :
    ∃ defs lis gis,
      compileDefs s.fields (referencedNames s) [] = .ok defs ∧
      mapExcept (compileIndex s) (s.indexes.filter fun ix => ix.kind.isLocal) = .ok lis ∧
      mapExcept (compileIndex s) (s.indexes.filter fun ix => !ix.kind.isLocal) = .ok gis ∧
      td = ⟨defs, tableKeySchema s, lis, gis⟩ := by
  unfold compile at h
  cases h1 : compileDefs s.fields (referencedNames s) [] <;> rw [h1] at h
  · exact absurd h (by simp)
  · cases h2 : mapExcept (compileIndex s)
        (s.indexes.filter fun ix => ix.kind.isLocal) <;> rw [h2] at h
    · exact absurd h (by simp)
    · cases h3 : mapExcept (compileIndex s)
          (s.indexes.filter fun ix => !ix.kind.isLocal) <;> rw [h3] at h
      · exact absurd h (by simp)
      · cases h
        exact ⟨_, _, _, rfl, rfl, rfl, rfl⟩

theorem tableKeySchema_names (s : SchemaDefinition) :
    (tableKeySchema s).map KeySchemaElement.attributeName = tableKeyNames s := by
  unfold tableKeySchema tableKeyNames
  cases s.rangeKey <;> simp

theorem mem_indexesKeyNames (s : SchemaDefinition) :
    ∀ (l : List IndexDefinition) (n : String),
      n ∈ indexesKeyNames s l ↔ ∃ ix ∈ l, n ∈ indexKeyNames s ix := by
  intro l
  induction l with
  | nil => simp [indexesKeyNames]
  | cons ix rest ih =>
    intro n
    unfold indexesKeyNames
    rw [List.mem_append, ih]
    simp

/-- The both-kinds-of-indexes scenario schema: hash `name`, range `age`,
two local and two global indexes over `nick` and `wins`. -/
def bothIndexesSchema : SchemaDefinition :=
  { hashKey := "name"
    rangeKey := some "age"
    fields := [("name", ⟨.string, none⟩), ("age", ⟨.number, none⟩),
               ("nick", ⟨.string, none⟩), ("wins", ⟨.number, none⟩)]
    indexes :=
      [{ hashKey := "name", rangeKey := some "nick", kind := .localIdx,
         name := "NameNickIndex" },
       { hashKey := "name", rangeKey := some "wins", kind := .localIdx,
         name := "NameWinsIndex" },
       { hashKey := "nick", kind := .globalIdx, name := "GlobalNickIndex" },
       { hashKey := "age", rangeKey := some "wins", kind := .globalIdx,
         name := "GlobalAgeWinsIndex" }] }

/-- The compiled table definition of `bothIndexesSchema`. -/
def bothIndexesTable : TableDefinition :=
  { attributeDefinitions :=
      [⟨"name", .S⟩, ⟨"age", .N⟩, ⟨"nick", .S⟩, ⟨"wins", .N⟩]
    keySchema := [⟨"name", .HASH⟩, ⟨"age", .RANGE⟩]
    localSecondaryIndexes :=
      [{ indexName := "NameNickIndex"
         keySchema := [⟨"name", .HASH⟩, ⟨"nick", .RANGE⟩]
         projection := ⟨.ALL, []⟩ },
       { indexName := "NameWinsIndex"
         keySchema := [⟨"name", .HASH⟩, ⟨"wins", .RANGE⟩]
         projection := ⟨.ALL, []⟩ }]
    globalSecondaryIndexes :=
      [{ indexName := "GlobalNickIndex"
         keySchema := [⟨"nick", .HASH⟩]
         projection := ⟨.ALL, []⟩
         provisionedThroughput := some ⟨1, 1⟩ },
       { indexName := "GlobalAgeWinsIndex"
         keySchema := [⟨"age", .HASH⟩, ⟨"wins", .RANGE⟩]
         projection := ⟨.ALL, []⟩
         provisionedThroughput := some ⟨1, 1⟩ }] }

/-- The single-global-index scenario schema. -/
def globalNickSchema : SchemaDefinition :=
  { hashKey := "name"
    rangeKey := some "age"
    fields := [("name", ⟨.string, none⟩), ("age", ⟨.number, none⟩),
               ("nick", ⟨.string, none⟩)]
    indexes := [{ hashKey := "nick", kind := .globalIdx, name := "GlobalNickIndex" }] }

/-- The global index declaration of `globalNickSchema`, with no explicit
throughput or projection. -/
def globalNickIndexDef : IndexDefinition :=
  { hashKey := "nick", kind := .globalIdx, name := "GlobalNickIndex" }

/-- A schema declaring a LOCAL index while the table has no range key. -/
def noRangeLocalSchema : SchemaDefinition :=
  { hashKey := "name"
    fields := [("name", ⟨.string, none⟩), ("nick", ⟨.string, none⟩)]
    indexes := [{ hashKey := "name", rangeKey := some "nick", kind := .localIdx,
                  name := "NickIndex" }] }

/-- The offending local index declaration of `noRangeLocalSchema`. -/
def noRangeLocalIndexDef : IndexDefinition :=
  { hashKey := "name", rangeKey := some "nick", kind := .localIdx,
    name := "NickIndex" }

/-- C1: compiling the schema with hash key `name` (string) and range key
`age` (number) yields AttributeDefinitions `[{name,S},{age,N}]` and
KeySchema `[{name,HASH},{age,RANGE}]`; string-typed fields map to store
tag S and numeric fields to N. -/
theorem compile_name_age_scenario :
    compile nameAgeSchema = .ok
      { attributeDefinitions := [⟨"name", .S⟩, ⟨"age", .N⟩]
        keySchema := [⟨"name", .HASH⟩, ⟨"age", .RANGE⟩]
        localSecondaryIndexes := []
        globalSecondaryIndexes := [] } ∧
    inferType .string = .S ∧ inferType .number = .N :=
  ⟨rfl, rfl, rfl⟩

/-- C2: for every schema with a range key, a successful compile produces
AttributeDefinitions with no duplicate names, equal as a set to the union
of the table key schema's and every index key schema's attribute names,
and ordered by first reference (table hash key, table range key, then
index-referenced attributes in declaration order). -/
theorem compile_attribute_definitions_first_reference (s : SchemaDefinition)
    (td : TableDefinition) (hr : s.rangeKey.isSome = true)
    (hc : compile s = .ok td) :
    (td.attributeDefinitions.map AttributeDefinition.attributeName).Nodup ∧
    td.attributeDefinitions.map AttributeDefinition.attributeName
      = firstOccurrences (referencedNames s) ∧
    ∀ n : String,
      n ∈ td.attributeDefinitions.map AttributeDefinition.attributeName ↔
        n ∈ td.keySchema.map KeySchemaElement.attributeName ∨
        ∃ ci ∈ td.localSecondaryIndexes ++ td.globalSecondaryIndexes,
          n ∈ ci.keySchema.map KeySchemaElement.attributeName := by
  obtain ⟨defs, lis, gis, h1, h2, h3, rfl⟩ := compile_ok_parts s td hc
  dsimp only
  have hmap : defs.map AttributeDefinition.attributeName
      = firstOccurrences (referencedNames s) :=
    compileDefs_map_name s.fields (referencedNames s) [] defs h1
  refine ⟨?_, hmap, ?_⟩
  · rw [hmap]
    exact foldl_addName_nodup (referencedNames s) [] List.nodup_nil
  · intro n
    rw [hmap, mem_firstOccurrences, tableKeySchema_names]
    unfold referencedNames
    rw [List.mem_append, mem_indexesKeyNames]
    constructor
    · rintro (hn | ⟨ix, hix, hn⟩)
      · exact Or.inl hn
      · refine Or.inr ?_
        cases hk : ix.kind
        · have hmem : ix ∈ s.indexes.filter fun j => j.kind.isLocal := by
            rw [List.mem_filter]
            exact ⟨hix, by rw [hk]; rfl⟩
          obtain ⟨ci, hci, hcio⟩ :=
            mapExcept_ok_mem_left (compileIndex s) _ lis h2 ix hmem
          refine ⟨ci, List.mem_append_left _ hci, ?_⟩
          rw [compileIndex_keyNames s ix ci hcio]
          exact hn
        · have hmem : ix ∈ s.indexes.filter fun j => !j.kind.isLocal := by
            rw [List.mem_filter]
            exact ⟨hix, by rw [hk]; rfl⟩
          obtain ⟨ci, hci, hcio⟩ :=
            mapExcept_ok_mem_left (compileIndex s) _ gis h3 ix hmem
          refine ⟨ci, List.mem_append_right _ hci, ?_⟩
          rw [compileIndex_keyNames s ix ci hcio]
          exact hn
    · rintro (hn | ⟨ci, hci, hn⟩)
      · exact Or.inl hn
      · refine Or.inr ?_
        rw [List.mem_append] at hci
        rcases hci with hci | hci
        · obtain ⟨ix, hix, hcio⟩ :=
            mapExcept_ok_mem_right (compileIndex s) _ lis h2 ci hci
          refine ⟨ix, (List.mem_filter.mp hix).1, ?_⟩
          rw [← compileIndex_keyNames s ix ci hcio]
          exact hn
        · obtain ⟨ix, hix, hcio⟩ :=
            mapExcept_ok_mem_right (compileIndex s) _ gis h3 ci hci
          refine ⟨ix, (List.mem_filter.mp hix).1, ?_⟩
          rw [← compileIndex_keyNames s ix ci hcio]
          exact hn

/-- Witness for C2 at the two-local-two-global scenario schema. -/
theorem compile_attribute_definitions_first_reference_witness :
    bothIndexesSchema.rangeKey.isSome = true ∧
    compile bothIndexesSchema = .ok bothIndexesTable ∧
    ((bothIndexesTable.attributeDefinitions.map AttributeDefinition.attributeName).Nodup ∧
     bothIndexesTable.attributeDefinitions.map AttributeDefinition.attributeName
       = firstOccurrences (referencedNames bothIndexesSchema) ∧
     ∀ n : String,
       n ∈ bothIndexesTable.attributeDefinitions.map AttributeDefinition.attributeName ↔
         n ∈ bothIndexesTable.keySchema.map KeySchemaElement.attributeName ∨
         ∃ ci ∈ bothIndexesTable.localSecondaryIndexes
             ++ bothIndexesTable.globalSecondaryIndexes,
           n ∈ ci.keySchema.map KeySchemaElement.attributeName) :=
  ⟨rfl, rfl,
   compile_attribute_definitions_first_reference bothIndexesSchema bothIndexesTable rfl rfl⟩

/-- C3: a GLOBAL index declared without explicit read/write capacity and
without an explicit projection compiles to ProvisionedThroughput
`{ReadCapacityUnits: 1, WriteCapacityUnits: 1}` and Projection
`{ProjectionType: ALL}`. -/
theorem global_index_default_throughput_and_projection (s : SchemaDefinition)
    (ix : IndexDefinition) (ci : CompiledIndex) (hk : ix.kind = .globalIdx)
    (hrc : ix.readCapacity = none) (hwc : ix.writeCapacity = none)
    (hp : ix.projection = none) (hc : compileIndex s ix = .ok ci) :
    ci.provisionedThroughput = some ⟨1, 1⟩ ∧ ci.projection = ⟨.ALL, []⟩ := by
  unfold compileIndex at hc
  rw [hk] at hc
  cases hc
  constructor
  · rw [hrc, hwc]
    rfl
  · rw [hp]
    rfl

/-- Witness for C3 at the `GlobalNickIndex` scenario. -/
theorem global_index_default_throughput_and_projection_witness :
    globalNickIndexDef.kind = .globalIdx ∧
    globalNickIndexDef.readCapacity = none ∧
    globalNickIndexDef.writeCapacity = none ∧
    globalNickIndexDef.projection = none ∧
    compileIndex globalNickSchema globalNickIndexDef = .ok
      { indexName := "GlobalNickIndex"
        keySchema := [⟨"nick", .HASH⟩]
        projection := ⟨.ALL, []⟩
        provisionedThroughput := some ⟨1, 1⟩ } ∧
    (({ indexName := "GlobalNickIndex"
        keySchema := [⟨"nick", .HASH⟩]
        projection := ⟨.ALL, []⟩
        provisionedThroughput := some ⟨1, 1⟩ } : CompiledIndex).provisionedThroughput
       = some ⟨1, 1⟩ ∧
     ({ indexName := "GlobalNickIndex"
        keySchema := [⟨"nick", .HASH⟩]
        projection := ⟨.ALL, []⟩
        provisionedThroughput := some ⟨1, 1⟩ } : CompiledIndex).projection
       = ⟨.ALL, []⟩) :=
  ⟨rfl, rfl, rfl, rfl, rfl,
   global_index_default_throughput_and_projection globalNickSchema globalNickIndexDef
     _ rfl rfl rfl rfl rfl⟩

/-- C5: a schema declaring a LOCAL secondary index while the table has no
range key fails compilation with a SchemaError; no table definition is
produced. -/
theorem local_index_without_table_range_key_fails (s : SchemaDefinition)
    (ix : IndexDefinition) (hmem : ix ∈ s.indexes) (hk : ix.kind = .localIdx)
    (hnr : s.rangeKey = none) :
    ∃ e, compile s = .error e := by
  cases h1 : compileDefs s.fields (referencedNames s) [] with
  | error e =>
    refine ⟨e, ?_⟩
    unfold compile
    rw [h1]
  | ok defs =>
    have hfm : ix ∈ s.indexes.filter fun j => j.kind.isLocal := by
      rw [List.mem_filter]
      exact ⟨hmem, by rw [hk]; rfl⟩
    cases hfl : s.indexes.filter fun j => j.kind.isLocal with
    | nil =>
      rw [hfl] at hfm
      exact absurd hfm (by simp)
    | cons a rest =>
      have ha : a ∈ s.indexes.filter fun j => j.kind.isLocal := by
        rw [hfl]
        exact List.mem_cons_self _ _
      have hak : a.kind.isLocal = true := (List.mem_filter.mp ha).2
      have hloc : a.kind = .localIdx := by
        cases hka : a.kind
        · rfl
        · rw [hka] at hak
          exact absurd hak (by simp [IndexKind.isLocal])
      have herr : compileIndex s a
          = .error (.localIndexWithoutTableRangeKey a.name) := by
        unfold compileIndex
        rw [hloc, hnr]
      have hme : mapExcept (compileIndex s) (a :: rest)
          = .error (.localIndexWithoutTableRangeKey a.name) := by
        unfold mapExcept
        rw [herr]
      refine ⟨.localIndexWithoutTableRangeKey a.name, ?_⟩
      unfold compile
      rw [h1]
      dsimp only
      rw [hfl, hme]

/-- Witness for C5 at a concrete local-index, no-range-key schema. -/
theorem local_index_without_table_range_key_fails_witness :
    noRangeLocalIndexDef ∈ noRangeLocalSchema.indexes ∧
    noRangeLocalIndexDef.kind = .localIdx ∧
    noRangeLocalSchema.rangeKey = none ∧
    ∃ e, compile noRangeLocalSchema = .error e :=
  ⟨List.mem_cons_self _ _, rfl, rfl,
   local_index_without_table_range_key_fails noRangeLocalSchema noRangeLocalIndexDef
     (List.mem_cons_self _ _) rfl rfl⟩

/-- Modelled from the spec: item-level validation errors raised by the
ItemCodec before anything is sent to the store. -/
inductive ValidationError where
  | emptyStringKey (field : String)
  | typeMismatch (field : String)
deriving DecidableEq, Repr

/-- Does an application value conform to a declared field type? -/
def conforms : FieldType → AppValue → Bool
  | .string, .vStr _ => true
  | .uuid, .vStr _ => true
  | .number, .vNum _ => true
  | .date, .vDate _ => true
  | .boolean, .vBool _ => true
  | .binary, .vBin _ => true
  | .stringSet, .vStrSet _ => true
  | .numberSet, .vNumSet _ => true
  | .binarySet, .vBinSet _ => true
  | _, _ => false

/-- Modelled from the spec: coerce an application value to the inferred
store type; a value of the wrong shape for its declared type has no
encoding. -/
def encodeValue : FieldType → AppValue → Option AttrValue
  | .string, .vStr s => some (.S s)
  | .uuid, .vStr s => some (.S s)
  | .number, .vNum n => some (.N n)
  | .date, .vDate d => some (.S d)
  | .boolean, .vBool b => some (.BOOL b)
  | .binary, .vBin bs => some (.B bs)
  | .stringSet, .vStrSet ss => some (.SS ss)
  | .numberSet, .vNumSet ns => some (.NS ns)
  | .binarySet, .vBinSet bs => some (.BS bs)
  | _, _ => none

/-- Modelled from the spec: reverse an encoded attribute to its native
representation, directed by the field's declared type. -/
def decodeValue : FieldType → AttrValue → Option AppValue
  | .string, .S s => some (.vStr s)
  | .uuid, .S s => some (.vStr s)
  | .number, .N n => some (.vNum n)
  | .date, .S d => some (.vDate d)
  | .boolean, .BOOL b => some (.vBool b)
  | .binary, .B bs => some (.vBin bs)
  | .stringSet, .SS ss => some (.vStrSet ss)
  | .numberSet, .NS ns => some (.vNumSet ns)
  | .binarySet, .BS bs => some (.vBinSet bs)
  | _, _ => none

theorem decode_encode (t : FieldType) (v : AppValue) (h : conforms t v = true) :
    ∃ av, encodeValue t v = some av ∧ decodeValue t av = some v := by
  cases t <;> cases v <;> simp_all [conforms, encodeValue, decodeValue]

/-- The attribute names belonging to any key schema, table or index. -/
def keyAttributeNames (s : SchemaDefinition) : List String :=
  referencedNames s

/-- Modelled from the spec: an item field's effective value — the item's
own value when present, else the result of the schema's default-value
generator when one is defined. -/
def resolveFieldValue (item : List (String × AppValue)) (n : String)
    (fs : FieldSpec) : Option AppValue :=
  match lookupValue item n with
  | some v => some v
  | none => fs.default

/-- Is this the empty-string value? -/
def isEmptyString : AppValue → Bool
  | .vStr "" => true
  | _ => false

/-- Modelled from the spec: marshal one schema field.  An absent value is
omitted; an empty-string value on a key attribute is a ValidationError;
otherwise the value is coerced to the store type. -/
def marshalField (s : SchemaDefinition) (item : List (String × AppValue))
    (n : String) (fs : FieldSpec) :
    Except ValidationError (Option (String × AttrValue)) :=
  match resolveFieldValue item n fs with
  | none => .ok none
  | some v =>
    if isEmptyString v && (keyAttributeNames s).contains n then
      .error (.emptyStringKey n)
    else
      match encodeValue fs.ftype v with
      | some av => .ok (some (n, av))
      | none => .error (.typeMismatch n)

/-- Marshal every schema field in declaration order, stopping at the
first validation error. -/
def marshalFields (s : SchemaDefinition) (item : List (String × AppValue)) :
    List (String × FieldSpec) → Except ValidationError (List (String × AttrValue))
  | [] => .ok []
  | (n, fs) :: rest =>
    match marshalField s item n fs with
    | .error e => .error e
    | .ok head =>
      match marshalFields s item rest with
      | .error e => .error e
      | .ok tail => .ok (head.toList ++ tail)

/-- Modelled from the spec: ItemCodec marshal — serialize an item into
the store's attribute-value map, applying schema defaults. -/
def marshal (s : SchemaDefinition) (item : List (String × AppValue)) :
    Except ValidationError (List (String × AttrValue)) :=
  marshalFields s item s.fields

/-- Decode one wire entry; attributes absent from the schema are ignored
on read. -/
def unmarshalEntry (s : SchemaDefinition) (p : String × AttrValue) :
    Option (String × AppValue) :=
  match lookupValue s.fields p.1 with
  | some fs => (decodeValue fs.ftype p.2).map fun v => (p.1, v)
  | none => none

/-- Modelled from the spec: ItemCodec unmarshal — reverse each encoded
attribute, dropping attributes not declared in the schema. -/
def unmarshal (s : SchemaDefinition) (wire : List (String × AttrValue)) :
    List (String × AppValue) :=
  wire.filterMap (unmarshalEntry s)

/-- The value a schema field resolves to, tagged with the field name. -/
def resolvedEntry (item : List (String × AppValue)) (q : String × FieldSpec) :
    Option (String × AppValue) :=
  (resolveFieldValue item q.1 q.2).map fun v => (q.1, v)

/-- All resolved field values of a schema fragment, in declaration
order. -/
def resolvedFields (item : List (String × AppValue))
    (fields : List (String × FieldSpec)) : List (String × AppValue) :=
  fields.filterMap (resolvedEntry item)

/-- Every item field is declared in the schema with a conforming,
non-empty-on-key value. -/
def fieldWellTyped (s : SchemaDefinition) (p : String × AppValue) : Bool :=
  match lookupValue s.fields p.1 with
  | some fs =>
    conforms fs.ftype p.2 &&
      (!((keyAttributeNames s).contains p.1) || !isEmptyString p.2)
  | none => false

/-- The item is well-typed against the schema: every supplied field is
declared, conforms to its declared type and is not an empty string on a
key attribute. -/
def wellTypedItem (s : SchemaDefinition) (item : List (String × AppValue)) : Bool :=
  item.all (fieldWellTyped s)

/-- Every default-value generator of the schema produces a conforming,
non-empty value (e.g. a current timestamp or a random UUID). -/
def defaultsOk (s : SchemaDefinition) : Bool :=
  s.fields.all fun q =>
    match q.2.default with
    | some d => conforms q.2.ftype d && !isEmptyString d
    | none => true

theorem lookupValue_of_nodup_mem {α : Type} :
    ∀ (l : List (String × α)), (l.map Prod.fst).Nodup →
      ∀ p ∈ l, lookupValue l p.1 = some p.2 := by
  intro l
  induction l with
  | nil => simp
  | cons q rest ih =>
    intro hnd p hp
    rw [List.map_cons, List.nodup_cons] at hnd
    rw [List.mem_cons] at hp
    rcases hp with rfl | hp
    · simp [lookupValue, List.find?_cons_of_pos]
    · have hne : (q.1 == p.1) = false := by
        rw [beq_eq_false_iff_ne]
        intro hq
        exact hnd.1 (hq ▸ List.mem_map_of_mem Prod.fst hp)
      unfold lookupValue
      rw [List.find?_cons_of_neg _ (by simp [hne])]
      exact ih hnd.2 p hp

theorem lookupValue_eq_none {α : Type} :
    ∀ (l : List (String × α)) (n : String), n ∉ l.map Prod.fst →
      lookupValue l n = none := by
  intro l
  induction l with
  | nil => intro n _; rfl
  | cons q rest ih =>
    intro n hn
    rw [List.map_cons, List.mem_cons] at hn
    push_neg at hn
    unfold lookupValue
    rw [List.find?_cons_of_neg _ (by simp only [beq_iff_eq]; exact fun h => hn.1 h.symm)]
    exact ih n hn.2

theorem lookupValue_mem {α : Type} (l : List (String × α)) (n : String) (v : α)
    (h : lookupValue l n = some v) : ∃ p ∈ l, p.1 = n ∧ p.2 = v := by
  unfold lookupValue at h
  cases hf : l.find? (fun p => p.1 == n) <;> rw [hf] at h
  · exact absurd h (by simp)
  · rename_i p
    have hpn : (p.1 == n) = true := (List.find?_eq_some.mp hf).1
    refine ⟨p, List.mem_of_find?_eq_some hf, beq_iff_eq.mp hpn, by simpa using h⟩

theorem lookupValue_cons_eq {α : Type} (p : String × α) (l : List (String × α))
    (n : String) (h : p.1 = n) : lookupValue (p :: l) n = some p.2 := by
  unfold lookupValue
  rw [List.find?_cons_of_pos _ (by simp [h])]
  rfl

theorem lookupValue_cons_ne {α : Type} (p : String × α) (l : List (String × α))
    (n : String) (h : ¬p.1 = n) : lookupValue (p :: l) n = lookupValue l n := by
  unfold lookupValue
  rw [List.find?_cons_of_neg _ (by simp [h])]

theorem resolvedFields_cons_none (item : List (String × AppValue))
    (q : String × FieldSpec) (rest : List (String × FieldSpec))
    (h : resolvedEntry item q = none) :
    resolvedFields item (q :: rest) = resolvedFields item rest := by
  unfold resolvedFields
  rw [List.filterMap_cons, h]

theorem resolvedFields_cons_some (item : List (String × AppValue))
    (q : String × FieldSpec) (rest : List (String × FieldSpec))
    (pv : String × AppValue) (h : resolvedEntry item q = some pv) :
    resolvedFields item (q :: rest) = pv :: resolvedFields item rest := by
  unfold resolvedFields
  rw [List.filterMap_cons, h]

theorem unmarshal_cons_some (s : SchemaDefinition) (p : String × AttrValue)
    (wire : List (String × AttrValue)) (pv : String × AppValue)
    (h : unmarshalEntry s p = some pv) :
    unmarshal s (p :: wire) = pv :: unmarshal s wire := by
  unfold unmarshal
  rw [List.filterMap_cons, h]

theorem resolvedEntry_eq_some (item : List (String × AppValue))
    (q : String × FieldSpec) (pv : String × AppValue)
    (h : resolvedEntry item q = some pv) :
    ∃ v, resolveFieldValue item q.1 q.2 = some v ∧ pv = (q.1, v) := by
  unfold resolvedEntry at h
  cases hrv : resolveFieldValue item q.1 q.2 <;> rw [hrv] at h
  · exact absurd h (by simp)
  · rename_i v
    exact ⟨v, rfl, by simpa using h.symm⟩

theorem resolve_conforms (s : SchemaDefinition) (item : List (String × AppValue))
    (n : String) (fs : FieldSpec) (v : AppValue)
    (hW : wellTypedItem s item = true) (hD : defaultsOk s = true)
    (hfs : lookupValue s.fields n = some fs)
    (hres : resolveFieldValue item n fs = some v) :
    conforms fs.ftype v = true ∧
    (isEmptyString v && (keyAttributeNames s).contains n) = false := by
  unfold resolveFieldValue at hres
  cases hl : lookupValue item n <;> rw [hl] at hres <;> dsimp only at hres
  · obtain ⟨q, hq, hq1, hq2⟩ := lookupValue_mem s.fields n fs hfs
    have hDq := List.all_eq_true.mp hD q hq
    rw [hq2, hres] at hDq
    dsimp only at hDq
    rw [Bool.and_eq_true] at hDq
    refine ⟨hDq.1, ?_⟩
    have hne : isEmptyString v = false := by
      have hd := hDq.2
      rwa [Bool.not_eq_true'] at hd
    rw [hne, Bool.false_and]
  · cases hres
    obtain ⟨p, hp, hp1, hp2⟩ := lookupValue_mem item n v hl
    have hWp := List.all_eq_true.mp hW p hp
    unfold fieldWellTyped at hWp
    rw [hp1, hfs] at hWp
    dsimp only at hWp
    rw [Bool.and_eq_true] at hWp
    rw [← hp2]
    refine ⟨hWp.1, ?_⟩
    have hor := hWp.2
    cases he : isEmptyString p.2 <;> cases hc : (keyAttributeNames s).contains n <;>
      simp_all

theorem lookupValue_resolvedFields_none (item : List (String × AppValue)) :
    ∀ (fields : List (String × FieldSpec)) (n : String),
      n ∉ fields.map Prod.fst →
      lookupValue (resolvedFields item fields) n = none := by
  intro fields
  induction fields with
  | nil => intro n _; rfl
  | cons q rest ih =>
    intro n hn
    rw [List.map_cons, List.mem_cons] at hn
    push_neg at hn
    cases hre : resolvedEntry item q with
    | none =>
      rw [resolvedFields_cons_none item q rest hre]
      exact ih n hn.2
    | some pv =>
      obtain ⟨v, hv, rfl⟩ := resolvedEntry_eq_some item q pv hre
      rw [resolvedFields_cons_some item q rest _ hre,
          lookupValue_cons_ne (q.1, v) (resolvedFields item rest) n
            (fun h => hn.1 h.symm)]
      exact ih n hn.2

theorem lookupValue_resolvedFields (item : List (String × AppValue)) :
    ∀ (fields : List (String × FieldSpec)), (fields.map Prod.fst).Nodup →
      ∀ (n : String) (fs : FieldSpec), lookupValue fields n = some fs →
        lookupValue (resolvedFields item fields) n = resolveFieldValue item n fs := by
  intro fields
  induction fields with
  | nil => intro _ n fs h; exact absurd h (by simp [lookupValue])
  | cons q rest ih =>
    intro hnd n fs hl
    rw [List.map_cons, List.nodup_cons] at hnd
    by_cases hqn : q.1 = n
    · have hfs : fs = q.2 := by
        rw [lookupValue_cons_eq q rest n hqn] at hl
        simpa using hl.symm
      subst hfs
      subst hqn
      cases hre : resolveFieldValue item q.1 q.2 with
      | none =>
        rw [resolvedFields_cons_none item q rest (by simp [resolvedEntry, hre]),
            lookupValue_resolvedFields_none item rest q.1 hnd.1]
      | some v =>
        rw [resolvedFields_cons_some item q rest (q.1, v) (by simp [resolvedEntry, hre]),
            lookupValue_cons_eq (q.1, v) (resolvedFields item rest) q.1 rfl]
    · have hl' : lookupValue rest n = some fs := by
        rwa [lookupValue_cons_ne q rest n hqn] at hl
      cases hre : resolvedEntry item q with
      | none =>
        rw [resolvedFields_cons_none item q rest hre]
        exact ih hnd.2 n fs hl'
      | some pv =>
        obtain ⟨v, hv, rfl⟩ := resolvedEntry_eq_some item q pv hre
        rw [resolvedFields_cons_some item q rest _ hre,
            lookupValue_cons_ne (q.1, v) (resolvedFields item rest) n hqn]
        exact ih hnd.2 n fs hl'

theorem marshalFields_unmarshal (s : SchemaDefinition)
    (item : List (String × AppValue)) (hW : wellTypedItem s item = true)
    (hD : defaultsOk s = true) :
    ∀ fields : List (String × FieldSpec),
      (∀ q ∈ fields, lookupValue s.fields q.1 = some q.2) →
      ∃ wire, marshalFields s item fields = .ok wire ∧
        unmarshal s wire = resolvedFields item fields := by
  intro fields
  induction fields with
  | nil => intro _; exact ⟨[], rfl, rfl⟩
  | cons q rest ih =>
    obtain ⟨n, fs⟩ := q
    intro hall
    have hfs : lookupValue s.fields n = some fs := hall (n, fs) (List.mem_cons_self _ _)
    obtain ⟨tailwire, htail, htailu⟩ := ih fun r hr => hall r (List.mem_cons_of_mem _ hr)
    cases hres : resolveFieldValue item n fs with
    | none =>
      have hmf : marshalField s item n fs = .ok none := by
        unfold marshalField
        rw [hres]
      refine ⟨tailwire, ?_, ?_⟩
      · unfold marshalFields
        rw [hmf, htail]
        rfl
      · rw [resolvedFields_cons_none item (n, fs) rest (by simp [resolvedEntry, hres])]
        exact htailu
    | some v =>
      have hcv := resolve_conforms s item n fs v hW hD hfs hres
      obtain ⟨av, henc, hdec⟩ := decode_encode fs.ftype v hcv.1
      have hmf : marshalField s item n fs = .ok (some (n, av)) := by
        unfold marshalField
        rw [hres]
        dsimp only
        rw [hcv.2, if_neg (by simp), henc]
      refine ⟨(n, av) :: tailwire, ?_, ?_⟩
      · unfold marshalFields
        rw [hmf, htail]
        rfl
      · have hentry : unmarshalEntry s (n, av) = some (n, v) := by
          simp [unmarshalEntry, hfs, hdec]
        rw [unmarshal_cons_some s (n, av) tailwire (n, v) hentry,
            resolvedFields_cons_some item (n, fs) rest (n, v) (by simp [resolvedEntry, hres]),
            htailu]

/-- A remote-client call issued by an item write. -/
inductive RemoteCall where
  | put (wire : List (String × AttrValue))
deriving DecidableEq, Repr

/-- Modelled from the spec: an item write marshals first and only on
success issues the put call to the remote client; a marshal failure
issues no call at all. -/
def putItemOp (s : SchemaDefinition) (item : List (String × AppValue)) :
    Except ValidationError (List RemoteCall) :=
  match marshal s item with
  | .error e => .error e
  | .ok wire => .ok [.put wire]

theorem marshalFields_error_of_field (s : SchemaDefinition)
    (item : List (String × AppValue)) :
    ∀ fields : List (String × FieldSpec),
      (∃ q ∈ fields, ∃ e0, marshalField s item q.1 q.2 = .error e0) →
      ∃ e, marshalFields s item fields = .error e := by
  intro fields
  induction fields with
  | nil =>
    rintro ⟨q, hq, _⟩
    exact absurd hq (by simp)
  | cons q0 rest ih =>
    obtain ⟨n, fs⟩ := q0
    rintro ⟨q, hq, e0, he0⟩
    cases h1 : marshalField s item n fs with
    | error e =>
      refine ⟨e, ?_⟩
      unfold marshalFields
      rw [h1]
    | ok head =>
      have hqr : q ∈ rest := by
        rcases List.mem_cons.mp hq with rfl | hmem
        · have he0' : marshalField s item n fs = .error e0 := he0
          rw [h1] at he0'
          exact absurd he0' (by simp)
        · exact hmem
      obtain ⟨e, he⟩ := ih ⟨q, hqr, e0, he0⟩
      refine ⟨e, ?_⟩
      unfold marshalFields
      rw [h1, he]

/-- C6: an item whose value for a key-schema attribute (table or index
key) is the empty string fails marshal with a ValidationError, and the
write operation errors without issuing any remote call. -/
theorem marshal_rejects_empty_string_key (s : SchemaDefinition)
    (item : List (String × AppValue)) (n : String) (fs : FieldSpec)
    (hfs : lookupValue s.fields n = some fs)
    (hkey : (keyAttributeNames s).contains n = true)
    (hval : lookupValue item n = some (.vStr "")) :
    ∃ e, marshal s item = .error e ∧ putItemOp s item = .error e := by
  obtain ⟨q, hq, hq1, hq2⟩ := lookupValue_mem s.fields n fs hfs
  have hres : resolveFieldValue item n fs = some (.vStr "") := by
    unfold resolveFieldValue
    rw [hval]
  have hcond : (isEmptyString (AppValue.vStr "") &&
      (keyAttributeNames s).contains n) = true := by
    rw [hkey]
    rfl
  have hmf : marshalField s item q.1 q.2 = .error (.emptyStringKey n) := by
    rw [hq1, hq2]
    unfold marshalField
    rw [hres]
    dsimp only
    rw [if_pos hcond]
  obtain ⟨e, he⟩ :=
    marshalFields_error_of_field s item s.fields ⟨q, hq, .emptyStringKey n, hmf⟩
  have hm : marshal s item = .error e := he
  refine ⟨e, hm, ?_⟩
  unfold putItemOp
  rw [hm]

/-- C7: marshalling a well-typed item and unmarshalling the result yields
every field the item supplied unchanged, and every schema-default field
absent from the item is present and non-empty in the result. -/
theorem marshal_unmarshal_roundtrip (s : SchemaDefinition)
    (item : List (String × AppValue))
    (hS : (s.fields.map Prod.fst).Nodup)
    (hI : (item.map Prod.fst).Nodup)
    (hW : wellTypedItem s item = true)
    (hD : defaultsOk s = true) :
    ∃ wire, marshal s item = .ok wire ∧
      (∀ p ∈ item, lookupValue (unmarshal s wire) p.1 = some p.2) ∧
      (∀ q ∈ s.fields, lookupValue item q.1 = none →
        ∀ d, q.2.default = some d →
          lookupValue (unmarshal s wire) q.1 = some d ∧ isEmptyString d = false) := by
  have hall : ∀ q ∈ s.fields, lookupValue s.fields q.1 = some q.2 :=
    lookupValue_of_nodup_mem s.fields hS
  obtain ⟨wire, hm, hu⟩ := marshalFields_unmarshal s item hW hD s.fields hall
  refine ⟨wire, hm, ?_, ?_⟩
  · intro p hp
    have hwt : fieldWellTyped s p = true := List.all_eq_true.mp hW p hp
    obtain ⟨fs, hfsp⟩ : ∃ fs, lookupValue s.fields p.1 = some fs := by
      unfold fieldWellTyped at hwt
      cases hlk : lookupValue s.fields p.1 <;> rw [hlk] at hwt
      · exact absurd hwt (by simp)
      · exact ⟨_, rfl⟩
    have hres : resolveFieldValue item p.1 fs = some p.2 := by
      unfold resolveFieldValue
      rw [lookupValue_of_nodup_mem item hI p hp]
    rw [hu, lookupValue_resolvedFields item s.fields hS p.1 fs hfsp]
    exact hres
  · intro q hq hnone d hd
    have hfsq : lookupValue s.fields q.1 = some q.2 := hall q hq
    have hres : resolveFieldValue item q.1 q.2 = some d := by
      unfold resolveFieldValue
      rw [hnone]
      dsimp only
      exact hd
    refine ⟨?_, ?_⟩
    · rw [hu, lookupValue_resolvedFields item s.fields hS q.1 q.2 hfsq]
      exact hres
    · have hDq := List.all_eq_true.mp hD q hq
      rw [hd] at hDq
      dsimp only at hDq
      rw [Bool.and_eq_true] at hDq
      have hd2 := hDq.2
      rwa [Bool.not_eq_true'] at hd2

/-- The tweet-like schema: hash key UserId (string), range key TweetID
(UUID with a generated default), a plain content field and a
date-defaulted PublishedDateTime field. -/
def tweetSchema : SchemaDefinition :=
  { hashKey := "UserId"
    rangeKey := some "TweetID"
    fields := [("UserId", ⟨.string, none⟩),
               ("TweetID", ⟨.uuid, some (.vStr "7f4e9a2c-0000-4000-8000-5e1f00000001")⟩),
               ("content", ⟨.string, none⟩),
               ("PublishedDateTime", ⟨.date, some (.vDate "2024-01-01T00:00:00Z")⟩)] }

/-- A well-typed item supplying only UserId and content. -/
def tweetItem : List (String × AppValue) :=
  [("UserId", .vStr "user-1"), ("content", .vStr "hello world")]

/-- An item carrying the empty string on the key attribute UserId. -/
def emptyKeyItem : List (String × AppValue) :=
  [("UserId", .vStr ""), ("content", .vStr "hi")]

/-- Witness for C6: the empty-string UserId item fails marshal and
issues no remote call. -/
theorem marshal_rejects_empty_string_key_witness :
    lookupValue tweetSchema.fields "UserId" = some ⟨.string, none⟩ ∧
    (keyAttributeNames tweetSchema).contains "UserId" = true ∧
    lookupValue emptyKeyItem "UserId" = some (.vStr "") ∧
    ∃ e, marshal tweetSchema emptyKeyItem = .error e ∧
      putItemOp tweetSchema emptyKeyItem = .error e :=
  ⟨rfl, rfl, rfl,
   marshal_rejects_empty_string_key tweetSchema emptyKeyItem "UserId"
     ⟨.string, none⟩ rfl rfl rfl⟩

/-- Witness for C7 at the tweet schema and a concrete item. -/
theorem marshal_unmarshal_roundtrip_witness :
    (tweetSchema.fields.map Prod.fst).Nodup ∧
    (tweetItem.map Prod.fst).Nodup ∧
    wellTypedItem tweetSchema tweetItem = true ∧
    defaultsOk tweetSchema = true ∧
    (∃ wire, marshal tweetSchema tweetItem = .ok wire ∧
      (∀ p ∈ tweetItem, lookupValue (unmarshal tweetSchema wire) p.1 = some p.2) ∧
      (∀ q ∈ tweetSchema.fields, lookupValue tweetItem q.1 = none →
        ∀ d, q.2.default = some d →
          lookupValue (unmarshal tweetSchema wire) q.1 = some d ∧
          isEmptyString d = false)) :=
  ⟨by decide, by decide, rfl, rfl,
   marshal_unmarshal_roundtrip tweetSchema tweetItem (by decide) (by decide) rfl rfl⟩

/-- Modelled from the spec: the remote store's authoritative state for a
table, as returned by describe — key schema, attribute definitions and
the current global secondary indexes. -/
structure RemoteTable where
  keySchema : List KeySchemaElement := []
  attributeDefinitions : List AttributeDefinition := []
  globalSecondaryIndexes : List CompiledIndex := []
deriving DecidableEq, Repr

/-- One update request against the remote store: the global-index create
operations it carries. -/
structure UpdateRequest where
  indexCreates : List CompiledIndex
deriving DecidableEq, Repr

/-- Modelled from the spec: the updateTable index diff — compiled GLOBAL
indexes whose names are absent from the remote table's current
GlobalSecondaryIndexes are emitted as create-index operations. -/
def indexDiff (remote compiled : List CompiledIndex) : List CompiledIndex :=
  compiled.filter fun g => !(remote.any fun r => r.indexName == g.indexName)

/-- Apply a set of index-create operations to a remote table state. -/
def applyIndexCreates (t : RemoteTable) (creates : List CompiledIndex) : RemoteTable :=
  { t with globalSecondaryIndexes := t.globalSecondaryIndexes ++ creates }

/-- Modelled from the spec: TableLifecycleController.updateTable —
compile the schema, diff its GLOBAL indexes against the remote state by
index name, and issue one update request per call whose creates are the
missing indexes; on success the remote state carries the added
indexes. -/
def updateTable (s : SchemaDefinition) (remote : RemoteTable) :
    Except SchemaError (List UpdateRequest × RemoteTable) :=
  match compile s with
  | .error e => .error e
  | .ok td =>
    let creates := indexDiff remote.globalSecondaryIndexes td.globalSecondaryIndexes
    .ok ([⟨creates⟩], applyIndexCreates remote creates)

/-- Modelled from the spec: describeTable is a pure read of the remote
table state. -/
def describeTable (remote : RemoteTable) : RemoteTable := remote

/-- C4: updating a table from a schema whose compiled output has exactly
one global secondary index, absent by name from the remote table, issues
exactly one update request creating that index, and describeTable on the
resulting state shows the index with the requested key schema and
projection. -/
theorem updateTable_adds_single_new_global_index (s : SchemaDefinition)
    (remote : RemoteTable) (td : TableDefinition) (g : CompiledIndex)
    (hc : compile s = .ok td)
    (hone : td.globalSecondaryIndexes = [g])
    (habsent : (remote.globalSecondaryIndexes.all
      fun r => r.indexName != g.indexName) = true) :
    updateTable s remote = .ok ([⟨[g]⟩], applyIndexCreates remote [g]) ∧
    g ∈ (describeTable (applyIndexCreates remote [g])).globalSecondaryIndexes := by
  have hany : (remote.globalSecondaryIndexes.any
      fun r => r.indexName == g.indexName) = false := by
    rw [Bool.eq_false_iff]
    intro hc'
    rw [List.any_eq_true] at hc'
    obtain ⟨r, hr, hrn⟩ := hc'
    have hall := List.all_eq_true.mp habsent r hr
    rw [bne_iff_ne] at hall
    exact hall (beq_iff_eq.mp hrn)
  have hdiff : indexDiff remote.globalSecondaryIndexes [g] = [g] := by
    unfold indexDiff
    rw [List.filter_cons_of_pos (by simp [hany])]
    rfl
  refine ⟨?_, ?_⟩
  · unfold updateTable
    rw [hc]
    dsimp only
    rw [hone, hdiff]
  · unfold describeTable applyIndexCreates
    simp

/-- The tweet schema extended with the PublishedDateTimeIndex global
index, as passed to updateTable in the scenario. -/
def tweetIndexSchema : SchemaDefinition :=
  { hashKey := "UserId"
    rangeKey := some "TweetID"
    fields := tweetSchema.fields
    indexes := [{ hashKey := "UserId", rangeKey := some "PublishedDateTime",
                  kind := .globalIdx, name := "PublishedDateTimeIndex" }] }

/-- The compiled form of the PublishedDateTimeIndex global index. -/
def publishedDateTimeIndex : CompiledIndex :=
  { indexName := "PublishedDateTimeIndex"
    keySchema := [⟨"UserId", .HASH⟩, ⟨"PublishedDateTime", .RANGE⟩]
    projection := ⟨.ALL, []⟩
    provisionedThroughput := some ⟨1, 1⟩ }

/-- The compiled table definition of `tweetIndexSchema`. -/
def tweetIndexTable : TableDefinition :=
  { attributeDefinitions := [⟨"UserId", .S⟩, ⟨"TweetID", .S⟩, ⟨"PublishedDateTime", .S⟩]
    keySchema := [⟨"UserId", .HASH⟩, ⟨"TweetID", .RANGE⟩]
    localSecondaryIndexes := []
    globalSecondaryIndexes := [publishedDateTimeIndex] }

/-- The remote state of the tweet table before the update: created from
the index-free schema, so with no global secondary indexes. -/
def tweetRemoteTable : RemoteTable :=
  { keySchema := [⟨"UserId", .HASH⟩, ⟨"TweetID", .RANGE⟩]
    attributeDefinitions := [⟨"UserId", .S⟩, ⟨"TweetID", .S⟩]
    globalSecondaryIndexes := [] }

/-- Witness for C4 at the tweet add-global-index scenario. -/
theorem updateTable_adds_single_new_global_index_witness :
    compile tweetIndexSchema = .ok tweetIndexTable ∧
    tweetIndexTable.globalSecondaryIndexes = [publishedDateTimeIndex] ∧
    (tweetRemoteTable.globalSecondaryIndexes.all
      fun r => r.indexName != publishedDateTimeIndex.indexName) = true ∧
    (updateTable tweetIndexSchema tweetRemoteTable
        = .ok ([⟨[publishedDateTimeIndex]⟩],
               applyIndexCreates tweetRemoteTable [publishedDateTimeIndex]) ∧
     publishedDateTimeIndex ∈
       (describeTable (applyIndexCreates tweetRemoteTable
         [publishedDateTimeIndex])).globalSecondaryIndexes) :=
  ⟨rfl, rfl, rfl,
   updateTable_adds_single_new_global_index tweetIndexSchema tweetRemoteTable
     tweetIndexTable publishedDateTimeIndex rfl rfl rfl⟩

/-- From the source (`internals.compileModel`): lowercase the model name
character by character, as the JS toLowerCase call does for these ASCII
model names. -/
def toLowerCase (s : String) : String := String.mk (s.data.map Char.toLower)

/-- From the source (`internals.compileModel`, line 81): extremely simple
table names — the lowercased model name with the character 's' appended. -/
def compileModelTableName (name : String) : String := toLowerCase name ++ "s"

/-- A compiled model: the model name, the table name computed by
compileModel and the schema handed to the Table constructor. -/
structure CompiledModel where
  modelName : String
  tableConfigName : String
  schema : SchemaDefinition
deriving DecidableEq, Repr

/-- From the source (`internals.compileModel`): build the model around a
table named from the model name. -/
def compileModel (name : String) (schema : SchemaDefinition) : CompiledModel :=
  ⟨name, compileModelTableName name, schema⟩

/-- Modelled from the spec: the Table module (required by the facade but
not among the sources) resolves the table name from the schema
configuration's tableName option when given, else uses the name passed
by compileModel. -/
def tableNameUsed (m : CompiledModel) : String :=
  m.schema.tableName.getD m.tableConfigName

/-- C8: a model defined without an explicit tableName uses the lowercased
model name with the character 's' appended as its table name. -/
theorem define_default_table_name (name : String) (s : SchemaDefinition)
    (h : s.tableName = none) :
    tableNameUsed (compileModel name s) = toLowerCase name ++ "s" := by
  unfold tableNameUsed compileModel
  rw [h]
  rfl

/-- A minimal schema with no explicit tableName. -/
def accountSchema : SchemaDefinition :=
  { hashKey := "id", fields := [("id", ⟨.string, none⟩)] }

/-- Witness for C8: the model Account gets table accounts. -/
theorem define_default_table_name_witness :
    accountSchema.tableName = none ∧
    tableNameUsed (compileModel "Account" accountSchema) = "accounts" :=
  ⟨rfl, (define_default_table_name "Account" accountSchema rfl).trans (by decide)⟩

/-- From the source (`dynamo.define`): the configuration argument is
either the old-style schema callback (a function) or a schema
configuration object. -/
inductive DefineConfig where
  | schemaCallback
  | config (c : SchemaDefinition)

/-- From the source (`internals.addModel`): register a compiled model in
the model registry. -/
def addModel (models : List (String × CompiledModel)) (name : String)
    (m : CompiledModel) : List (String × CompiledModel) :=
  (name, m) :: models

/-- From the source (`dynamo.define`): a function config throws before
anything is compiled or registered; otherwise the schema is compiled into
a model and registered.  The returned pair is the call's result and the
registry afterwards. -/
def dynamoDefine (models : List (String × CompiledModel)) (modelName : String)
    (config : DefineConfig) :
    Except String CompiledModel × List (String × CompiledModel) :=
  match config with
  | .schemaCallback =>
    (.error "define no longer accepts schema callback, migrate to new api", models)
  | .config c =>
    let m := compileModel modelName c
    (.ok m, addModel models modelName m)

/-- C9: define with a function config throws the migration error and
registers nothing — the registry is returned unchanged. -/
theorem define_rejects_schema_callback (models : List (String × CompiledModel))
    (modelName : String) :
    dynamoDefine models modelName .schemaCallback
      = (.error "define no longer accepts schema callback, migrate to new api",
         models) := rfl

/-- The eventual outcome of the promise returned by createTables. -/
inductive PromiseState (ε ρ : Type) where
  | resolved (r : ρ)
  | rejected (e : ε)

/-- From the source (`dynamo.createTables`): when no callback is given a
promise is created whose internal callback rejects with a truthy error
and resolves with the results otherwise; when a callback is given it is
invoked with the error and results and no promise is returned.  The
first component is the returned promise's eventual state (none when the
call returns undefined); the second is the invocation delivered to the
user callback. -/
def dynamoCreateTables {ε ρ : Type} (hasCallback : Bool) (err : Option ε)
    (results : ρ) : Option (PromiseState ε ρ) × Option (Option ε × ρ) :=
  if hasCallback then (none, some (err, results))
  else
    (some (match err with
           | some e => .rejected e
           | none => .resolved results), none)

/-- C10: createTables without a callback returns a promise resolving with
the results when the underlying operation passes no error and rejecting
with the error otherwise; with a callback it returns undefined and
invokes the callback instead. -/
theorem createTables_promise_or_callback {ε ρ : Type} (e : ε) (err : Option ε)
    (r : ρ) :
    dynamoCreateTables false (none : Option ε) r = (some (.resolved r), none) ∧
    dynamoCreateTables false (some e) r = (some (.rejected e), none) ∧
    dynamoCreateTables true err r = (none, some (err, r)) :=
  ⟨rfl, rfl, rfl⟩

end Dynamo
